import Mathlib

/-!
Verification of the frame-pairing / multi-backend prompt pipeline in
src/src/videoextendprompt.py, as a shallow embedding.

Text is modelled as List Char.  Filesystem paths are List Char; a scanned
directory tree is a list of entries (parent directory, file name, whether the
entry is a regular file), in the traversal order of Path.rglob.  Python's
stable sort (sorted) is modelled by List.insertionSort, which is also stable,
so the two agree as functions.  A backend call that may raise is modelled as a
function returning Except.
-/

/-! ### extract_samp_content (lines 43-68 of videoextendprompt.py) -/

/-- Whitespace recognized by Python str.split (ASCII range). -/
def pySpace (c : Char) : Bool :=
  c == ' ' || c == '\t' || c == '\n' || c == '\r' || c == '\x0b' || c == '\x0c'

/-- Scanner for Python text.split(): acc holds the current token reversed;
whitespace runs separate tokens and empty tokens are dropped. -/
def splitWsAux : List Char → List Char → List (List Char)
  | [], acc => if acc = [] then [] else [acc.reverse]
  | c :: t, acc =>
    if pySpace c then
      if acc = [] then splitWsAux t [] else acc.reverse :: splitWsAux t []
    else splitWsAux t (c :: acc)

/-- Python text.split(). -/
def splitWs (t : List Char) : List (List Char) := splitWsAux t []

/-- Python " ".join(tokens). -/
def joinSp : List (List Char) → List Char
  | [] => []
  | [tok] => tok
  | tok :: rest => tok ++ ' ' :: joinSp rest

/-- Python " ".join(text.split()): collapse internal whitespace runs to single
spaces and strip leading/trailing whitespace. -/
def normalizeWs (t : List Char) : List Char := joinSp (splitWs t)

/-- splitFirst pat t = some (b, a) splits t = b ++ pat ++ a at the first
occurrence of pat; none if pat does not occur in t. -/
def splitFirst (pat : List Char) : List Char → Option (List Char × List Char)
  | [] => if pat.isPrefixOf ([] : List Char) then some ([], []) else none
  | c :: t =>
    if pat.isPrefixOf (c :: t) then some ([], (c :: t).drop pat.length)
    else
      match splitFirst pat t with
      | some (b, a) => some (c :: b, a)
      | none => none

def sampOpen : List Char := "<samp>".toList

def sampClose : List Char := "</samp>".toList

/-- Fuel-indexed scanner computing re.findall(r"<samp>(.*?)</samp>", text,
re.DOTALL): repeatedly take the first "<samp>", then the first "</samp>"
after it (lazy match), emit the enclosed content, continue after "</samp>".
Each step consumes at least 13 characters, so fuel = length suffices. -/
def sampMatchesAux : Nat → List Char → List (List Char)
  | 0, _ => []
  | fuel + 1, t =>
    match splitFirst sampOpen t with
    | none => []
    | some (_, r1) =>
      match splitFirst sampClose r1 with
      | none => []
      | some (content, r2) => content :: sampMatchesAux fuel r2

/-- All (non-overlapping, lazy) matches of the samp regex, left to right. -/
def sampMatches (t : List Char) : List (List Char) := sampMatchesAux t.length t

/-- extract_samp_content: the last match normalized, else the whole text
normalized; empty input yields empty output.  (The source wraps the regex
call in try/except, but re.findall with this fixed pattern cannot raise, and
the except branch returns the same normalized whole text as the no-match
fallback.) -/
def extract_samp_content (t : List Char) : List Char :=
  if t = [] then []
  else
    match (sampMatches t).getLast? with
    | some content => normalizeWs content
    | none => normalizeWs t

/-! ### find_image_pairs (lines 71-98) -/

/-- One entry of the recursive directory scan: parent directory path, file
name, and whether the entry is a regular file (Path.is_file). -/
structure PFile where
  parent : List Char
  name : List Char
  isFile : Bool
deriving DecidableEq

/-- pathlib suffix: index of the last '.' in the name, if any. -/
def rfindDotIdx (cs : List Char) : Option Nat :=
  match cs.reverse.findIdx? (fun c => c == '.') with
  | none => none
  | some j => some (cs.length - 1 - j)

/-- pathlib Path.suffix of a file name: from the last dot, unless the dot is
leading or trailing. -/
def suffixOf (cs : List Char) : List Char :=
  match rfindDotIdx cs with
  | none => []
  | some i => if 0 < i ∧ i < cs.length - 1 then cs.drop i else []

/-- img_path.suffix.lower() in {".png", ".jpg", ".jpeg"}. -/
def isImageName (name : List Char) : Bool :=
  let s := (suffixOf name).map Char.toLower
  s == ".png".toList || s == ".jpg".toList || s == ".jpeg".toList

/-- The filter applied to each scanned entry (line 85). -/
def qualifies (f : PFile) : Bool := f.isFile && isImageName f.name

/-- Full path of an entry; Python compares Path objects, which for paths in
one directory is lexicographic comparison of the full path string. -/
def fullPath (f : PFile) : List Char := f.parent ++ '/' :: f.name

def pathLe (a b : PFile) : Prop := fullPath a ≤ fullPath b

instance : DecidableRel pathLe :=
  fun a b => inferInstanceAs (Decidable (fullPath a ≤ fullPath b))

instance : IsTotal PFile pathLe := ⟨fun a b => le_total (fullPath a) (fullPath b)⟩

instance : IsTrans PFile pathLe := ⟨fun _ _ _ h h2 => le_trans h h2⟩

/-- x[0].name: the name of the first image of a group (sort key, line 93). -/
def headName : List PFile → List Char
  | [] => []
  | f :: _ => f.name

def keyLe (x y : List PFile) : Prop := headName x ≤ headName y

instance : DecidableRel keyLe :=
  fun x y => inferInstanceAs (Decidable (headName x ≤ headName y))

instance : IsTotal (List PFile) keyLe := ⟨fun x y => le_total (headName x) (headName y)⟩

instance : IsTrans (List PFile) keyLe := ⟨fun _ _ _ h h2 => le_trans h h2⟩

/-- folder_images[parent].append(img_path), creating the key on first use:
insertion-ordered dict of lists. -/
def addToGroup : List (List Char × List PFile) → PFile → List (List Char × List PFile)
  | [], f => [(f.parent, [f])]
  | (k, fs) :: rest, f =>
    if k = f.parent then (k, fs ++ [f]) :: rest else (k, fs) :: addToGroup rest f

/-- The grouping loop of lines 84-89 over the scan in traversal order. -/
def groupByParent (files : List PFile) : List (List Char × List PFile) :=
  files.foldl addToGroup []

/-- sorted_images[0], sorted_images[-1] for a group with at least 2 images
(lines 94-96); Python sorted is stable, modelled by insertionSort. -/
def pairOf (g : List PFile) : Option (PFile × PFile) :=
  if 2 ≤ g.length then
    match List.insertionSort pathLe g with
    | [] => none
    | a :: rest => some (a, (a :: rest).getLast (List.cons_ne_nil a rest))
  else none

/-- find_image_pairs: group the qualifying entries by parent directory, order
the groups by the name of their first image (sorted with key=lambda x:
x[0].name, stable), and keep (first, last) of each group of length >= 2. -/
def find_image_pairs (entries : List PFile) : List (PFile × PFile) :=
  let groups := groupByParent (entries.filter qualifies)
  let sortedVals := List.insertionSort keyLe (groups.map Prod.snd)
  sortedVals.filterMap pairOf

/-- The qualifying files of directory d, in traversal order. -/
def qualIn (entries : List PFile) (d : List Char) : List PFile :=
  (entries.filter qualifies).filter (fun f => decide (f.parent = d))

/-- The pairs produced for directory d. -/
def pairsFor (entries : List PFile) (d : List Char) : List (PFile × PFile) :=
  (find_image_pairs entries).filter (fun p => decide (p.1.parent = d))

/-- A folder's own name: the component after the last '/'. -/
def baseName (p : List Char) : List Char :=
  (p.reverse.takeWhile (fun c => !(c == '/'))).reverse

/-- The group stored under key d in the insertion-ordered dict ([] if none). -/
def lookupGroup (gs : List (List Char × List PFile)) (d : List Char) : List PFile :=
  match gs.find? (fun e => decide (e.1 = d)) with
  | some e => e.2
  | none => []

/-- The keys of the insertion-ordered dict. -/
def keysOf (gs : List (List Char × List PFile)) : List (List Char) := gs.map Prod.fst

/-- The parent directory of a group's first file ([] for an empty group). -/
def headParent : List PFile → List Char
  | [] => []
  | f :: _ => f.parent

/-! ### process_pair / process_folder (lines 116-155) -/

def M1 : String := "openrouter/google/gemini-2.0-flash-exp:free"

def M2 : String := "openrouter/openai/gpt-4o-mini"

def M3 : String := "openrouter/anthropic/claude-3-haiku:beta"

def M4 : String := "openrouter/x-ai/grok-2-vision-1212"

/-- The fixed ordered backend list (lines 35-40). -/
def MODELS : List String := [M1, M2, M3, M4]

/-- The backend loop of process_pair (lines 125-132).  resp m is the outcome
of the external ask call for model m (raising is Except.error); on success
the response goes through extract_samp_content (get_full_answer) and is
recorded; on error the loop continues.  Returns (models invoked in order,
report entries in insertion order). -/
def process_pair_run (resp : String → Except String (List Char)) :
    List String × List (String × List Char) :=
  MODELS.foldl
    (fun acc m =>
      match resp m with
      | Except.ok raw => (acc.1 ++ [m], acc.2 ++ [(m, extract_samp_content raw)])
      | Except.error _ => (acc.1 ++ [m], acc.2))
    ([], [])

/-- One report block: f.write(f"## {model}\n\n"); f.write(f"{answer}\n\n"). -/
def blockFor (m : String) (ans : List Char) : List Char :=
  ("## ".toList ++ m.toList ++ "\n\n".toList) ++ (ans ++ "\n\n".toList)

/-- The full text written by the report loop of lines 133-136. -/
def reportContent (report : List (String × List Char)) : List Char :=
  report.foldl (fun acc e => acc ++ blockFor e.1 e.2) []

/-- Path(folder, "video_prompt.md") with folder = image_pair[0].parent. -/
def reportPath (pair : PFile × PFile) : List Char :=
  pair.1.parent ++ '/' :: "video_prompt.md".toList

/-- A flat filesystem: path to file content. -/
def FSModel := List Char → Option (List Char)

/-- open(path, "w") + writes: truncate/create, replacing any old content. -/
def writeFile (fs : FSModel) (p content : List Char) : FSModel :=
  fun q => if q = p then some content else fs q

/-- process_pair's effect on the filesystem: the report file is opened and
written unconditionally after the backend loop. -/
def process_pair_fs (fs : FSModel) (resp : String → Except String (List Char))
    (pair : PFile × PFile) : FSModel :=
  writeFile fs (reportPath pair) (reportContent (process_pair_run resp).2)

/-- The per-pair loop of process_folder (lines 154-155).  The loop body has
no exception handler, so a failure of process_pair for one pair (its only
escaping failure source is the report-file write, since backend exceptions
are caught inside the loop of lines 126-132) propagates and ends the loop.
runPair p is the outcome of process_pair on p; returns (pairs attempted, the
propagated error if any). -/
def process_folder_loop (runPair : PFile × PFile → Except String Unit) :
    List (PFile × PFile) → List (PFile × PFile) × Option String
  | [] => ([], none)
  | p :: rest =>
    match runPair p with
    | Except.ok _ =>
      let r := process_folder_loop runPair rest
      (p :: r.1, r.2)
    | Except.error e => ([p], some e)

/-- The report content predicted by the record: one block per backend present,
in the fixed MODELS order, failed backends omitted. -/
def blocksOf (resp : String → Except String (List Char)) : List Char :=
  (MODELS.filterMap (fun m =>
    match resp m with
    | Except.ok raw => some (m, extract_samp_content raw)
    | Except.error _ => none)).foldl (fun acc e => acc ++ blockFor e.1 e.2) []

/-! ### Concrete inputs used by witnesses and counterexamples -/

def exTagText : List Char := "noise <samp>  A   B  </samp> trailing".toList

def exTwoTags : List Char := "<samp>first</samp> middle <samp>second</samp>".toList

def exNoTag : List Char := "  hello   world  ".toList

def exOneTag : List Char := "a <samp> b c </samp> d".toList

def exFileA1 : PFile := ⟨"root/shotA".toList, "frame_001.png".toList, true⟩

def exFileA2 : PFile := ⟨"root/shotA".toList, "frame_005.PNG".toList, true⟩

def exFileB1 : PFile := ⟨"root/shotB".toList, "only.jpg".toList, true⟩

def exEntries : List PFile := [exFileA1, exFileA2, exFileB1]

def exC2z1 : PFile := ⟨"a".toList, "z1.png".toList, true⟩

def exC2z2 : PFile := ⟨"a".toList, "z2.png".toList, true⟩

def exC2a1 : PFile := ⟨"b".toList, "a1.png".toList, true⟩

def exC2a2 : PFile := ⟨"b".toList, "a2.png".toList, true⟩

/-- Folder "a" holds images z1.png, z2.png; folder "b" holds a1.png, a2.png. -/
def exC2entries : List PFile := [exC2z1, exC2z2, exC2a1, exC2a2]

def exPairA : PFile × PFile := (exFileA1, exFileA2)

def exPairB : PFile × PFile := (⟨"root/shotC".toList, "x1.jpg".toList, true⟩,
  ⟨"root/shotC".toList, "x2.jpg".toList, true⟩)

/-- A run in which the first pair's report write fails (e.g. disk full). -/
def exBadRun : PFile × PFile → Except String Unit :=
  fun p => if p = exPairA then Except.error "disk full" else Except.ok ()

/-- Backend outcomes: the second backend raises, the others succeed. -/
def exResp : String → Except String (List Char) :=
  fun m => if m = M2 then Except.error "quota" else Except.ok exTagText

/-- Backend outcomes: every backend raises. -/
def exRespFail : String → Except String (List Char) :=
  fun _ => Except.error "network down"

/-- A filesystem already holding an old report for exPairA's folder. -/
def exFsOld : FSModel :=
  fun q => if q = reportPath exPairA then some "old report".toList else none

/-! ### Specification-side predicates used in the statements and proofs -/

/-- pat occurs (contiguously) somewhere in t. -/
def occursIn (pat t : List Char) : Prop := ∃ u v, t = u ++ pat ++ v

/-- t contains a "<samp>" followed (anywhere later) by a "</samp>"; this is
exactly the condition under which the samp regex has at least one match. -/
def hasPair (t : List Char) : Prop :=
  ∃ a b c, t = a ++ sampOpen ++ b ++ sampClose ++ c

/-- No whitespace characters. -/
def spaceFree (s : List Char) : Prop := ∀ c ∈ s, pySpace c = false

/-- A token list contains an open tag with a close tag at or after it. -/
def TokPair : List (List Char) → Prop
  | [] => False
  | tok :: rest =>
    (∃ u v, tok = u ++ sampOpen ++ v ∧
      (occursIn sampClose v ∨ ∃ tok2 ∈ rest, occursIn sampClose tok2)) ∨ TokPair rest

/-! ### Lemmas about splitFirst -/

theorem splitFirst_eq_append {pat : List Char} :
    ∀ {t b a : List Char}, splitFirst pat t = some (b, a) → t = b ++ pat ++ a := by
  intro t
  induction t with
  | nil =>
    intro b a h
    simp only [splitFirst] at h
    split at h
    · rename_i hp
      have hpre : pat <+: ([] : List Char) := List.isPrefixOf_iff_prefix.mp hp
      have hpat : pat = [] := List.prefix_nil.mp hpre
      simp only [Option.some.injEq, Prod.mk.injEq] at h
      obtain ⟨hb, ha⟩ := h
      subst hb; subst ha; simp [hpat]
    · exact absurd h (by simp)
  | cons c t ih =>
    intro b a h
    simp only [splitFirst] at h
    split at h
    · rename_i hp
      have hpre : pat <+: (c :: t) := List.isPrefixOf_iff_prefix.mp hp
      have heq := List.prefix_iff_eq_append.mp hpre
      simp only [Option.some.injEq, Prod.mk.injEq] at h
      obtain ⟨hb, ha⟩ := h
      subst hb; subst ha
      simpa using heq.symm
    · cases hsf : splitFirst pat t with
      | none => rw [hsf] at h; exact absurd h (by simp)
      | some ba =>
        obtain ⟨b0, a0⟩ := ba
        rw [hsf] at h
        simp only [Option.some.injEq, Prod.mk.injEq] at h
        obtain ⟨hb, ha⟩ := h
        subst hb; subst ha
        have := ih hsf
        rw [this]; simp

theorem splitFirst_minimal {pat : List Char} :
    ∀ {t b a : List Char}, splitFirst pat t = some (b, a) →
      ∀ u v, t = u ++ pat ++ v → b.length ≤ u.length := by
  intro t
  induction t with
  | nil =>
    intro b a h u v _
    simp only [splitFirst] at h
    split at h
    · simp only [Option.some.injEq, Prod.mk.injEq] at h
      obtain ⟨hb, _⟩ := h
      subst hb; simp
    · exact absurd h (by simp)
  | cons c t ih =>
    intro b a h u v huv
    simp only [splitFirst] at h
    split at h
    · simp only [Option.some.injEq, Prod.mk.injEq] at h
      obtain ⟨hb, _⟩ := h
      subst hb; simp
    · rename_i hp
      cases hsf : splitFirst pat t with
      | none => rw [hsf] at h; exact absurd h (by simp)
      | some ba =>
        obtain ⟨b0, a0⟩ := ba
        rw [hsf] at h
        simp only [Option.some.injEq, Prod.mk.injEq] at h
        obtain ⟨hb, _⟩ := h
        subst hb
        cases u with
        | nil =>
          exfalso
          apply hp
          refine List.isPrefixOf_iff_prefix.mpr ⟨v, ?_⟩
          simpa using huv.symm
        | cons u0 u' =>
          simp only [List.cons_append] at huv
          have hc := List.cons.inj huv
          simpa using Nat.succ_le_succ (ih hsf u' v hc.2)

theorem not_occursIn_of_splitFirst_none {pat : List Char} :
    ∀ {t : List Char}, splitFirst pat t = none → ¬ occursIn pat t := by
  intro t
  induction t with
  | nil =>
    intro h hocc
    simp only [splitFirst] at h
    split at h
    · exact absurd h (by simp)
    · rename_i hp
      obtain ⟨u, v, huv⟩ := hocc
      have h3 := huv.symm
      have h4 := List.append_eq_nil.mp h3
      have h5 := List.append_eq_nil.mp h4.1
      apply hp
      rw [h5.2]
      decide
  | cons c t ih =>
    intro h hocc
    simp only [splitFirst] at h
    split at h
    · exact absurd h (by simp)
    · rename_i hp
      obtain ⟨u, v, huv⟩ := hocc
      cases u with
      | nil =>
        apply hp
        refine List.isPrefixOf_iff_prefix.mpr ⟨v, ?_⟩
        simpa using huv.symm
      | cons u0 u' =>
        simp only [List.cons_append] at huv
        have hc := List.cons.inj huv
        cases hsf : splitFirst pat t with
        | none => exact ih hsf ⟨u', v, hc.2⟩
        | some ba => rw [hsf] at h; exact absurd h (by simp)

theorem splitFirst_isSome_of_occursIn {pat t : List Char} (h : occursIn pat t) :
    (splitFirst pat t).isSome := by
  cases hsf : splitFirst pat t with
  | none => exact absurd h (not_occursIn_of_splitFirst_none hsf)
  | some ba => simp

theorem not_occursIn_before {pat : List Char} (hpat : pat ≠ [])
    {t b a : List Char} (h : splitFirst pat t = some (b, a)) : ¬ occursIn pat b := by
  rintro ⟨u, v, huv⟩
  have ht : t = b ++ pat ++ a := splitFirst_eq_append h
  have hmin : b.length ≤ u.length := by
    apply splitFirst_minimal h u (v ++ pat ++ a)
    rw [ht, huv]; simp [List.append_assoc]
  have hb : b.length = u.length + (pat.length + v.length) := by
    rw [huv]; simp [List.length_append]
  have hplen : 0 < pat.length := List.length_pos.mpr hpat
  omega

theorem length_lt_of_splitFirst {pat : List Char} (hpat : pat ≠ [])
    {t b a : List Char} (h : splitFirst pat t = some (b, a)) : a.length < t.length := by
  have ht := splitFirst_eq_append h
  have hlen : t.length = b.length + (pat.length + a.length) := by
    rw [ht]; simp [List.length_append]
  have hplen : 0 < pat.length := List.length_pos.mpr hpat
  omega

/-! ### Lemmas about sampMatches -/

theorem sampMatchesAux_nil : ∀ f, sampMatchesAux f [] = [] := by
  intro f
  cases f with
  | zero => rfl
  | succ k => rfl

theorem sampMatchesAux_irrel : ∀ f1 f2 t, t.length ≤ f1 → t.length ≤ f2 →
    sampMatchesAux f1 t = sampMatchesAux f2 t := by
  intro f1
  induction f1 with
  | zero =>
    intro f2 t h1 _
    have ht : t = [] := List.length_eq_zero.mp (Nat.le_zero.mp h1)
    subst ht
    rw [sampMatchesAux_nil, sampMatchesAux_nil]
  | succ k ih =>
    intro f2 t h1 h2
    cases t with
    | nil => rw [sampMatchesAux_nil, sampMatchesAux_nil]
    | cons c t' =>
      cases f2 with
      | zero => simp at h2
      | succ m =>
        cases ho : splitFirst sampOpen (c :: t') with
        | none => simp [sampMatchesAux, ho]
        | some br =>
          obtain ⟨b1, r1⟩ := br
          cases hc : splitFirst sampClose r1 with
          | none => simp [sampMatchesAux, ho, hc]
          | some cr =>
            obtain ⟨content, r2⟩ := cr
            have l1 : r1.length < (c :: t').length :=
              length_lt_of_splitFirst (by decide) ho
            have l2 : r2.length < r1.length :=
              length_lt_of_splitFirst (by decide) hc
            have e1 : sampMatchesAux (k + 1) (c :: t') = content :: sampMatchesAux k r2 := by
              simp [sampMatchesAux, ho, hc]
            have e2 : sampMatchesAux (m + 1) (c :: t') = content :: sampMatchesAux m r2 := by
              simp [sampMatchesAux, ho, hc]
            rw [e1, e2]
            simp only [List.length_cons] at h1 h2 l1
            rw [ih m r2 (by omega) (by omega)]

theorem sampMatches_of_open_none {t : List Char} (h : splitFirst sampOpen t = none) :
    sampMatches t = [] := by
  unfold sampMatches
  cases t with
  | nil => exact sampMatchesAux_nil _
  | cons c t' => simp [sampMatchesAux, h]

theorem sampMatches_of_close_none {t b r1 : List Char}
    (ho : splitFirst sampOpen t = some (b, r1)) (hc : splitFirst sampClose r1 = none) :
    sampMatches t = [] := by
  unfold sampMatches
  cases t with
  | nil => exact sampMatchesAux_nil _
  | cons c t' => simp [sampMatchesAux, ho, hc]

theorem sampMatches_cons_eq {t b r1 content r2 : List Char}
    (ho : splitFirst sampOpen t = some (b, r1))
    (hc : splitFirst sampClose r1 = some (content, r2)) :
    sampMatches t = content :: sampMatches r2 := by
  cases t with
  | nil =>
    rw [show splitFirst sampOpen [] = none from by decide] at ho
    exact absurd ho (by simp)
  | cons c t' =>
    have l1 : r1.length < (c :: t').length := length_lt_of_splitFirst (by decide) ho
    have l2 : r2.length < r1.length := length_lt_of_splitFirst (by decide) hc
    show sampMatchesAux (c :: t').length (c :: t') = _
    rw [show (c :: t').length = t'.length + 1 from rfl]
    simp only [sampMatchesAux, ho, hc]
    have : sampMatchesAux t'.length r2 = sampMatchesAux r2.length r2 := by
      apply sampMatchesAux_irrel
      · simp only [List.length_cons] at l1; omega
      · exact Nat.le_refl _
    rw [this]
    rfl

theorem hasPair_of_sampMatches_ne {t : List Char} (h : sampMatches t ≠ []) : hasPair t := by
  cases ho : splitFirst sampOpen t with
  | none => exact absurd (sampMatches_of_open_none ho) h
  | some br =>
    obtain ⟨b1, r1⟩ := br
    cases hc : splitFirst sampClose r1 with
    | none => exact absurd (sampMatches_of_close_none ho hc) h
    | some cr =>
      obtain ⟨content, r2⟩ := cr
      have e1 := splitFirst_eq_append ho
      have e2 := splitFirst_eq_append hc
      exact ⟨b1, content, r2, by rw [e1, e2]; simp [List.append_assoc]⟩

theorem sampMatches_ne_of_hasPair {t : List Char} (h : hasPair t) : sampMatches t ≠ [] := by
  obtain ⟨a, b, c, ht⟩ := h
  have hocc : occursIn sampOpen t :=
    ⟨a, b ++ sampClose ++ c, by rw [ht]; simp [List.append_assoc]⟩
  have hs := splitFirst_isSome_of_occursIn hocc
  cases ho : splitFirst sampOpen t with
  | none => rw [ho] at hs; simp at hs
  | some br =>
    obtain ⟨b1, r1⟩ := br
    have hmin : b1.length ≤ a.length := by
      apply splitFirst_minimal ho a (b ++ sampClose ++ c)
      rw [ht]; simp [List.append_assoc]
    have ht1 : t = b1 ++ sampOpen ++ r1 := splitFirst_eq_append ho
    have hr1 : (b1 ++ sampOpen ++ r1).drop (b1 ++ sampOpen).length = r1 :=
      List.drop_left _ _
    rw [← ht1] at hr1
    have ht2 : t = ((a ++ sampOpen) ++ b) ++ (sampClose ++ c) := by
      rw [ht]; simp [List.append_assoc]
    have hklen : (b1 ++ sampOpen).length ≤ ((a ++ sampOpen) ++ b).length := by
      simp only [List.length_append]
      omega
    have hr1' : r1 = (((a ++ sampOpen) ++ b).drop (b1 ++ sampOpen).length) ++ (sampClose ++ c) := by
      rw [← hr1, ht2]
      exact List.drop_append_of_le_length hklen
    have hoccC : occursIn sampClose r1 :=
      ⟨((a ++ sampOpen) ++ b).drop (b1 ++ sampOpen).length, c, by
        rw [hr1']; simp [List.append_assoc]⟩
    have hsC := splitFirst_isSome_of_occursIn hoccC
    cases hc : splitFirst sampClose r1 with
    | none => rw [hc] at hsC; simp at hsC
    | some cr =>
      obtain ⟨content, r2⟩ := cr
      rw [sampMatches_cons_eq ho hc]
      simp

theorem sampMatches_no_close_aux : ∀ n t, t.length ≤ n →
    ∀ m ∈ sampMatches t, ¬ occursIn sampClose m := by
  intro n
  induction n with
  | zero =>
    intro t h m hm
    have ht : t = [] := List.length_eq_zero.mp (Nat.le_zero.mp h)
    subst ht
    simp [sampMatches, sampMatchesAux] at hm
  | succ k ih =>
    intro t h m hm
    cases ho : splitFirst sampOpen t with
    | none => rw [sampMatches_of_open_none ho] at hm; simp at hm
    | some br =>
      obtain ⟨b1, r1⟩ := br
      cases hc : splitFirst sampClose r1 with
      | none => rw [sampMatches_of_close_none ho hc] at hm; simp at hm
      | some cr =>
        obtain ⟨content, r2⟩ := cr
        rw [sampMatches_cons_eq ho hc] at hm
        rcases List.mem_cons.mp hm with hm1 | hm2
        · subst hm1
          exact not_occursIn_before (by decide) hc
        · have l1 : r1.length < t.length := length_lt_of_splitFirst (by decide) ho
          have l2 : r2.length < r1.length := length_lt_of_splitFirst (by decide) hc
          exact ih r2 (by omega) m hm2

theorem sampMatches_no_close {t : List Char} :
    ∀ m ∈ sampMatches t, ¬ occursIn sampClose m :=
  sampMatches_no_close_aux t.length t (Nat.le_refl _)

theorem occursIn_sampClose_of_hasPair {t : List Char} (h : hasPair t) :
    occursIn sampClose t := by
  obtain ⟨a, b, c, ht⟩ := h
  exact ⟨(a ++ sampOpen) ++ b, c, by rw [ht]⟩

/-! ### Lemmas about splitWs, joinSp, normalizeWs -/

theorem splitWsAux_tokens : ∀ t acc, spaceFree acc →
    ∀ tok ∈ splitWsAux t acc, tok ≠ [] ∧ spaceFree tok := by
  intro t
  induction t with
  | nil =>
    intro acc hacc tok htok
    simp only [splitWsAux] at htok
    split at htok
    · simp at htok
    · rename_i hne
      simp at htok
      subst htok
      refine ⟨by simpa using hne, ?_⟩
      intro ch hch
      exact hacc ch (List.mem_reverse.mp hch)
  | cons c t' ih =>
    intro acc hacc tok htok
    simp only [splitWsAux] at htok
    split at htok
    · split at htok
      · exact ih [] (by intro x hx; simp at hx) tok htok
      · rename_i hne
        rcases List.mem_cons.mp htok with h1 | h2
        · subst h1
          refine ⟨by simpa using hne, ?_⟩
          intro ch hch
          exact hacc ch (List.mem_reverse.mp hch)
        · exact ih [] (by intro x hx; simp at hx) tok h2
    · rename_i hcs
      refine ih (c :: acc) ?_ tok htok
      intro x hx
      rcases List.mem_cons.mp hx with h1 | h2
      · subst h1; simpa using hcs
      · exact hacc x h2

theorem splitWsAux_append_nonspace : ∀ s t acc, spaceFree s →
    splitWsAux (s ++ t) acc = splitWsAux t (s.reverse ++ acc) := by
  intro s
  induction s with
  | nil => intro t acc _; simp
  | cons c s' ih =>
    intro t acc hsf
    have hc : pySpace c = false := hsf c (by simp)
    show splitWsAux (c :: (s' ++ t)) acc = splitWsAux t ((c :: s').reverse ++ acc)
    rw [show splitWsAux (c :: (s' ++ t)) acc = splitWsAux (s' ++ t) (c :: acc) from by
      simp [splitWsAux, hc]]
    rw [ih t (c :: acc) (fun x hx => hsf x (by simp [hx]))]
    simp [List.reverse_cons, List.append_assoc]

theorem splitWs_joinSp : ∀ toks, (∀ tok ∈ toks, tok ≠ [] ∧ spaceFree tok) →
    splitWs (joinSp toks) = toks := by
  intro toks
  induction toks with
  | nil => intro _; rfl
  | cons tok rest ih =>
    intro h
    have h1 := h tok (by simp)
    cases rest with
    | nil =>
      show splitWsAux (joinSp [tok]) [] = [tok]
      have hj : joinSp [tok] = tok ++ [] := by simp [joinSp]
      rw [hj, splitWsAux_append_nonspace tok [] [] h1.2]
      simp [splitWsAux, h1.1]
    | cons r0 rs =>
      have hJ : joinSp (tok :: r0 :: rs) = tok ++ ' ' :: joinSp (r0 :: rs) := rfl
      show splitWsAux (joinSp (tok :: r0 :: rs)) [] = _
      rw [hJ, splitWsAux_append_nonspace tok _ [] h1.2]
      have hsp : pySpace ' ' = true := rfl
      have hstep : splitWsAux (' ' :: joinSp (r0 :: rs)) (tok.reverse ++ [])
          = tok.reverse.reverse :: splitWsAux (joinSp (r0 :: rs)) [] := by
        simp [splitWsAux, hsp, h1.1]
      rw [hstep, List.reverse_reverse]
      have hrest := ih (fun tk htk => h tk (by simp [htk]))
      rw [show splitWsAux (joinSp (r0 :: rs)) [] = splitWs (joinSp (r0 :: rs)) from rfl, hrest]

theorem normalizeWs_idem (t : List Char) : normalizeWs (normalizeWs t) = normalizeWs t := by
  unfold normalizeWs
  rw [splitWs_joinSp (splitWs t)
    (fun tok htok => splitWsAux_tokens t [] (by intro x hx; simp at hx) tok htok)]

/-! ### Occurrences pull back through whitespace normalization -/

theorem occursIn_append_left {p t : List Char} (s : List Char) (h : occursIn p t) :
    occursIn p (s ++ t) := by
  obtain ⟨u, v, ht⟩ := h
  exact ⟨s ++ u, v, by rw [ht]; simp [List.append_assoc]⟩

theorem occursIn_append_right {p t : List Char} (s : List Char) (h : occursIn p t) :
    occursIn p (t ++ s) := by
  obtain ⟨u, v, ht⟩ := h
  exact ⟨u, v ++ s, by rw [ht]; simp [List.append_assoc]⟩

/-- An occurrence of a space-free pattern in X ++ ' ' :: Y lies entirely inside
X or entirely inside Y, and the decomposition aligns accordingly. -/
theorem occSplitSpace : ∀ (X p a : List Char) {Y b : List Char},
    (' ' ∉ p) → X ++ ' ' :: Y = a ++ p ++ b →
    (∃ b2, X = a ++ p ++ b2 ∧ b = b2 ++ ' ' :: Y) ∨
    (∃ a2, a = X ++ ' ' :: a2 ∧ Y = a2 ++ p ++ b) := by
  intro X
  induction X with
  | nil =>
    intro p a Y b hsp heq
    cases a with
    | nil =>
      cases p with
      | nil => exact Or.inl ⟨[], by simp, by simpa using heq.symm⟩
      | cons q p' =>
        simp only [List.nil_append, List.cons_append] at heq
        have hc := List.cons.inj heq
        exact absurd (show (' ' ∈ q :: p') by rw [← hc.1]; exact List.mem_cons_self _ _) hsp
    | cons a0 a' =>
      simp only [List.nil_append, List.cons_append] at heq
      have hc := List.cons.inj heq
      exact Or.inr ⟨a', by rw [List.nil_append, hc.1], hc.2⟩
  | cons x X' ih =>
    intro p a Y b hsp heq
    cases a with
    | nil =>
      cases p with
      | nil =>
        refine Or.inl ⟨x :: X', by simp, ?_⟩
        simpa using heq.symm
      | cons q p' =>
        simp only [List.cons_append, List.nil_append] at heq
        have hc := List.cons.inj heq
        have hsp' : ' ' ∉ p' := fun hm => hsp (List.mem_cons_of_mem _ hm)
        have heq' : X' ++ ' ' :: Y = [] ++ p' ++ b := by simp [hc.2]
        rcases ih p' [] hsp' heq' with ⟨b2, hX', hb⟩ | ⟨a2, ha, _⟩
        · refine Or.inl ⟨b2, ?_, hb⟩
          simp only [List.nil_append] at hX' ⊢
          rw [List.cons_append, hc.1, hX']
        · exfalso; cases X' <;> simp at ha
    | cons a0 a' =>
      simp only [List.cons_append] at heq
      have hc := List.cons.inj heq
      rcases ih p a' hsp hc.2 with ⟨b2, hX', hb⟩ | ⟨a2, ha, hY⟩
      · refine Or.inl ⟨b2, ?_, hb⟩
        simp only [List.cons_append]
        rw [hc.1, hX']
      · refine Or.inr ⟨a2, ?_, hY⟩
        simp only [List.cons_append]
        rw [← hc.1, ha]

theorem occursIn_joinSp : ∀ (toks : List (List Char)) {p : List Char}, p ≠ [] →
    (' ' ∉ p) → occursIn p (joinSp toks) → ∃ tok ∈ toks, occursIn p tok := by
  intro toks
  induction toks with
  | nil =>
    intro p hp _ hocc
    obtain ⟨u, v, h⟩ := hocc
    have h4 := List.append_eq_nil.mp h.symm
    exact absurd (List.append_eq_nil.mp h4.1).2 hp
  | cons tok rest ih =>
    intro p hp hsp hocc
    cases rest with
    | nil => exact ⟨tok, by simp, hocc⟩
    | cons r0 rs =>
      have hJ : joinSp (tok :: r0 :: rs) = tok ++ ' ' :: joinSp (r0 :: rs) := rfl
      rw [hJ] at hocc
      obtain ⟨u, v, h⟩ := hocc
      rcases occSplitSpace tok p u hsp h with ⟨b2, hX, _⟩ | ⟨a2, _, hY⟩
      · exact ⟨tok, by simp, ⟨u, b2, hX⟩⟩
      · obtain ⟨tok2, htok2, hocc2⟩ := ih hp hsp ⟨a2, v, hY⟩
        exact ⟨tok2, by simp [htok2], hocc2⟩

theorem not_hasPair_nil : ¬ hasPair [] := by
  rintro ⟨a, b, c, h⟩
  have h4 := List.append_eq_nil.mp h.symm
  have h5 := List.append_eq_nil.mp h4.1
  exact absurd h5.2 (by decide)

theorem hasPair_append_right {t : List Char} (s : List Char) (h : hasPair t) :
    hasPair (t ++ s) := by
  obtain ⟨a, b, c, ht⟩ := h
  exact ⟨a, b, c ++ s, by rw [ht]; simp [List.append_assoc]⟩

theorem hasPair_append_left {t : List Char} (s : List Char) (h : hasPair t) :
    hasPair (s ++ t) := by
  obtain ⟨a, b, c, ht⟩ := h
  exact ⟨s ++ a, b, c, by rw [ht]; simp [List.append_assoc]⟩

theorem hasPair_joinSp : ∀ toks, (∀ tok ∈ toks, spaceFree tok) →
    hasPair (joinSp toks) → TokPair toks := by
  intro toks
  induction toks with
  | nil => intro _ h; exact absurd h not_hasPair_nil
  | cons tok rest ih =>
    intro hsf h
    cases rest with
    | nil =>
      obtain ⟨a, b, c, ht⟩ := h
      refine Or.inl ⟨a, b ++ sampClose ++ c, ?_, Or.inl ⟨b, c, rfl⟩⟩
      have : joinSp [tok] = tok := rfl
      rw [← this, ht]
      simp [List.append_assoc]
    | cons r0 rs =>
      have hJ : joinSp (tok :: r0 :: rs) = tok ++ ' ' :: joinSp (r0 :: rs) := rfl
      rw [hJ] at h
      obtain ⟨a, b, c, ht⟩ := h
      have ht' : tok ++ ' ' :: joinSp (r0 :: rs) = a ++ sampOpen ++ ((b ++ sampClose) ++ c) := by
        rw [ht]; simp [List.append_assoc]
      rcases occSplitSpace tok sampOpen a (by decide) ht' with ⟨b2, hX, hb⟩ | ⟨a2, _, hY⟩
      · have hb' : b2 ++ ' ' :: joinSp (r0 :: rs) = b ++ sampClose ++ c := hb.symm
        rcases occSplitSpace b2 sampClose b (by decide) hb' with ⟨c2, hb2, _⟩ | ⟨a3, _, hY2⟩
        · exact Or.inl ⟨a, b2, hX, Or.inl ⟨b, c2, hb2⟩⟩
        · have hocc : occursIn sampClose (joinSp (r0 :: rs)) := ⟨a3, c, hY2⟩
          obtain ⟨tok2, htok2, hocc2⟩ := occursIn_joinSp _ (by decide) (by decide) hocc
          exact Or.inl ⟨a, b2, hX, Or.inr ⟨tok2, htok2, hocc2⟩⟩
      · have hp2 : hasPair (joinSp (r0 :: rs)) := by
          refine ⟨a2, b, c, ?_⟩
          rw [hY]; simp [List.append_assoc]
        exact Or.inr (ih (fun tk htk => hsf tk (by simp [htk])) hp2)

theorem splitWsAux_occursIn : ∀ (t acc : List Char) {p tok : List Char},
    tok ∈ splitWsAux t acc → occursIn p tok → occursIn p (acc.reverse ++ t) := by
  intro t
  induction t with
  | nil =>
    intro acc p tok htok hocc
    simp only [splitWsAux] at htok
    split at htok
    · simp at htok
    · simp at htok
      subst htok
      rw [List.append_nil]
      exact hocc
  | cons c t' ih =>
    intro acc p tok htok hocc
    simp only [splitWsAux] at htok
    split at htok
    · split at htok
      · rename_i hacc
        subst hacc
        have h1 := ih [] htok hocc
        simp only [List.reverse_nil, List.nil_append] at h1 ⊢
        simpa using occursIn_append_left [c] h1
      · rcases List.mem_cons.mp htok with h1 | h2
        · subst h1
          exact occursIn_append_right _ hocc
        · have h1 := ih [] h2 hocc
          simp only [List.reverse_nil, List.nil_append] at h1
          have h3 : occursIn p (c :: t') := by simpa using occursIn_append_left [c] h1
          exact occursIn_append_left _ h3
    · have h1 := ih (c :: acc) htok hocc
      simpa [List.reverse_cons, List.append_assoc] using h1

theorem TokPair_splitWsAux : ∀ (t acc : List Char),
    TokPair (splitWsAux t acc) → hasPair (acc.reverse ++ t) := by
  intro t
  induction t with
  | nil =>
    intro acc h
    simp only [splitWsAux] at h
    split at h
    · exact absurd h (by simp [TokPair])
    · simp only [TokPair] at h
      rcases h with ⟨u, v, heq, hcl | ⟨tok2, htok2, _⟩⟩ | hfalse
      · obtain ⟨x, y, hv⟩ := hcl
        rw [List.append_nil]
        exact ⟨u, x, y, by rw [heq, hv]; simp [List.append_assoc]⟩
      · simp at htok2
      · exact absurd hfalse (by simp [TokPair])
  | cons c t' ih =>
    intro acc h
    simp only [splitWsAux] at h
    split at h
    · split at h
      · rename_i hacc
        subst hacc
        have h1 := ih [] h
        simp only [List.reverse_nil, List.nil_append] at h1 ⊢
        simpa using hasPair_append_left [c] h1
      · simp only [TokPair] at h
        rcases h with ⟨u, v, heq, hcl⟩ | htp
        · rcases hcl with hclv | ⟨tok2, htok2, hocc2⟩
          · obtain ⟨x, y, hv⟩ := hclv
            have hp1 : hasPair acc.reverse :=
              ⟨u, x, y, by rw [heq, hv]; simp [List.append_assoc]⟩
            exact hasPair_append_right _ hp1
          · have hocc3 := splitWsAux_occursIn t' [] htok2 hocc2
            simp only [List.reverse_nil, List.nil_append] at hocc3
            obtain ⟨x, y, ht'⟩ := hocc3
            exact ⟨u, v ++ c :: x, y, by
              rw [heq, ht']; simp [List.append_assoc, List.cons_append]⟩
        · have h1 := ih [] htp
          simp only [List.reverse_nil, List.nil_append] at h1
          have h2 : hasPair (c :: t') := by simpa using hasPair_append_left [c] h1
          exact hasPair_append_left _ h2
    · have h1 := ih (c :: acc) h
      simpa [List.reverse_cons, List.append_assoc] using h1

theorem hasPair_normalizeWs {t : List Char} (h : hasPair (normalizeWs t)) : hasPair t := by
  unfold normalizeWs at h
  have htp := hasPair_joinSp (splitWs t)
    (fun tok htok => (splitWsAux_tokens t [] (by intro x hx; simp at hx) tok htok).2) h
  have h2 := TokPair_splitWsAux t []
  simpa using h2 htp

/-! ### extract_samp_content: equations and idempotence -/

theorem sampMatches_nil : sampMatches [] = [] := rfl

theorem extract_of_no_match {t : List Char} (h : sampMatches t = []) :
    extract_samp_content t = normalizeWs t := by
  by_cases ht : t = []
  · subst ht; rfl
  · unfold extract_samp_content
    rw [if_neg ht, h]
    rfl

theorem extract_of_not_hasPair_normalize {t : List Char} (h : ¬ hasPair t) :
    extract_samp_content (normalizeWs t) = normalizeWs t := by
  by_cases hy : normalizeWs t = []
  · rw [hy]
    rfl
  · have hnp : ¬ hasPair (normalizeWs t) := fun hp => h (hasPair_normalizeWs hp)
    have hm : sampMatches (normalizeWs t) = [] := by
      by_contra hne
      exact hnp (hasPair_of_sampMatches_ne hne)
    rw [extract_of_no_match hm, normalizeWs_idem]

theorem extract_idem (t : List Char) :
    extract_samp_content (extract_samp_content t) = extract_samp_content t := by
  by_cases ht : t = []
  · subst ht; rfl
  · cases hm : (sampMatches t).getLast? with
    | none =>
      have hnil : sampMatches t = [] := by
        cases hmsm : sampMatches t with
        | nil => rfl
        | cons m ms =>
          rw [hmsm, List.getLast?_eq_getLast_of_ne_nil (List.cons_ne_nil m ms)] at hm
          exact absurd hm (by simp)
      rw [extract_of_no_match hnil]
      have hnp : ¬ hasPair t := fun hp => (sampMatches_ne_of_hasPair hp) hnil
      exact extract_of_not_hasPair_normalize hnp
    | some content =>
      have hcm : content ∈ sampMatches t := by
        obtain ⟨hne, hcg⟩ := List.mem_getLast?_eq_getLast (show content ∈ (sampMatches t).getLast? by rw [hm]; rfl)
        rw [hcg]
        exact List.getLast_mem hne
      have hext : extract_samp_content t = normalizeWs content := by
        unfold extract_samp_content
        rw [if_neg ht, hm]
      rw [hext]
      have hnoc : ¬ occursIn sampClose content := sampMatches_no_close content hcm
      have hnp : ¬ hasPair content := fun hp => hnoc (occursIn_sampClose_of_hasPair hp)
      exact extract_of_not_hasPair_normalize hnp

/-- C5: on any text with at least one samp-tagged occurrence the extractor
returns the content of the last occurrence, whitespace-normalized
(internal runs collapsed, edges stripped); in particular the two reference
examples extract to "A B" and "second". -/
theorem C5_extract_last_match :
    (∀ (t : List Char) (h : sampMatches t ≠ []),
      extract_samp_content t = normalizeWs ((sampMatches t).getLast h)) ∧
    extract_samp_content exTagText = "A B".toList ∧
    extract_samp_content exTwoTags = "second".toList := by
  refine ⟨?_, by decide, by decide⟩
  intro t h
  have ht : t ≠ [] := by
    intro he; subst he; exact h sampMatches_nil
  unfold extract_samp_content
  rw [if_neg ht, List.getLast?_eq_getLast_of_ne_nil h]

theorem C5_witness :
    extract_samp_content exTagText
      = normalizeWs ((sampMatches exTagText).getLast (by decide)) :=
  C5_extract_last_match.1 exTagText (by decide)

/-- C6: extraction is a total function of the text (the embedding is total,
matching "never raises"); with no tagged occurrence the whole raw text is
returned whitespace-normalized, and empty input yields empty output. -/
theorem C6_extract_total_fallback :
    (∀ t : List Char, sampMatches t = [] → extract_samp_content t = normalizeWs t) ∧
    extract_samp_content [] = [] :=
  ⟨fun _ h => extract_of_no_match h, rfl⟩

theorem C6_witness :
    extract_samp_content exNoTag = normalizeWs exNoTag :=
  C6_extract_total_fallback.1 exNoTag (by decide)

/-- C7: the extractor is idempotent on every input with at most one set of
samp tags: extract (extract x) = extract x. -/
theorem C7_extract_idempotent :
    ∀ x : List Char, (sampMatches x).length ≤ 1 →
      extract_samp_content (extract_samp_content x) = extract_samp_content x :=
  fun x _ => extract_idem x

theorem C7_witness :
    extract_samp_content (extract_samp_content exOneTag) = extract_samp_content exOneTag :=
  C7_extract_idempotent exOneTag (by decide)

/-! ### Lemmas about grouping by parent directory -/

theorem lookupGroup_addToGroup (gs : List (List Char × List PFile)) (f : PFile)
    (d : List Char) :
    lookupGroup (addToGroup gs f) d =
      if f.parent = d then lookupGroup gs d ++ [f] else lookupGroup gs d := by
  induction gs with
  | nil =>
    by_cases hd : f.parent = d
    · simp [addToGroup, lookupGroup, List.find?, hd]
    · simp [addToGroup, lookupGroup, List.find?, hd]
  | cons e rest ih =>
    obtain ⟨k, fs⟩ := e
    by_cases hk : k = f.parent
    · by_cases hd : k = d
      · have hfd : f.parent = d := hk ▸ hd
        simp [addToGroup, lookupGroup, List.find?, hk, hd, hfd]
      · have hfd : ¬ (f.parent = d) := fun h => hd (hk.trans h)
        simp [addToGroup, lookupGroup, List.find?, hk, hd, hfd]
    · by_cases hd : k = d
      · have hfd : ¬ (f.parent = d) := fun h => hk (hd.trans h.symm)
        have hk2 : ¬ (d = f.parent) := fun h => hk (hd.trans h)
        simp [addToGroup, lookupGroup, List.find?, hk, hd, hfd, hk2]
      · simp only [addToGroup, if_neg hk]
        have e1 : lookupGroup ((k, fs) :: addToGroup rest f) d
            = lookupGroup (addToGroup rest f) d := by
          simp [lookupGroup, List.find?, hd]
        have e2 : lookupGroup ((k, fs) :: rest) d = lookupGroup rest d := by
          simp [lookupGroup, List.find?, hd]
        rw [e1, e2, ih]

theorem lookupGroup_foldl (files : List PFile) : ∀ gs d,
    lookupGroup (List.foldl addToGroup gs files) d
      = lookupGroup gs d ++ files.filter (fun f => decide (f.parent = d)) := by
  induction files with
  | nil => intro gs d; simp
  | cons f fs ih =>
    intro gs d
    rw [List.foldl_cons, ih, lookupGroup_addToGroup, List.filter_cons]
    by_cases hd : f.parent = d
    · simp [hd]
    · simp [hd]

theorem lookupGroup_groupByParent (files : List PFile) (d : List Char) :
    lookupGroup (groupByParent files) d = files.filter (fun f => decide (f.parent = d)) := by
  unfold groupByParent
  rw [lookupGroup_foldl]
  simp [lookupGroup, List.find?]

theorem addToGroup_members (gs : List (List Char × List PFile)) (f : PFile)
    (h : ∀ e ∈ gs, e.2 ≠ [] ∧ ∀ f2 ∈ e.2, f2.parent = e.1) :
    ∀ e ∈ addToGroup gs f, e.2 ≠ [] ∧ ∀ f2 ∈ e.2, f2.parent = e.1 := by
  induction gs with
  | nil =>
    intro e he
    simp only [addToGroup] at he
    simp at he
    subst he
    exact ⟨by simp, by intro f2 hf2; simp at hf2; subst hf2; rfl⟩
  | cons e0 rest ih =>
    obtain ⟨k, fs⟩ := e0
    intro e he
    by_cases hk : k = f.parent
    · subst hk
      simp only [addToGroup, if_pos rfl] at he
      rcases List.mem_cons.mp he with h1 | h2
      · subst h1
        have h0 := h (f.parent, fs) (by simp)
        refine ⟨by simp, ?_⟩
        intro f2 hf2
        rcases List.mem_append.mp hf2 with hm | hm
        · exact h0.2 f2 hm
        · simp at hm; subst hm; rfl
      · exact h e (by simp [h2])
    · simp only [addToGroup, if_neg hk] at he
      rcases List.mem_cons.mp he with h1 | h2
      · subst h1
        exact h (k, fs) (by simp)
      · exact ih (fun e2 he2 => h e2 (by simp [he2])) e h2

theorem groupByParent_members_aux : ∀ (files : List PFile) gs,
    (∀ e ∈ gs, e.2 ≠ [] ∧ ∀ f2 ∈ e.2, f2.parent = e.1) →
    ∀ e ∈ List.foldl addToGroup gs files, e.2 ≠ [] ∧ ∀ f2 ∈ e.2, f2.parent = e.1 := by
  intro files
  induction files with
  | nil => intro gs h; exact h
  | cons f fs ih =>
    intro gs h
    rw [List.foldl_cons]
    exact ih (addToGroup gs f) (addToGroup_members gs f h)

theorem groupByParent_members (files : List PFile) :
    ∀ e ∈ groupByParent files, e.2 ≠ [] ∧ ∀ f2 ∈ e.2, f2.parent = e.1 :=
  groupByParent_members_aux files [] (by intro e he; simp at he)

theorem addToGroup_keys (gs : List (List Char × List PFile)) (f : PFile) :
    keysOf (addToGroup gs f) =
      if f.parent ∈ keysOf gs then keysOf gs else keysOf gs ++ [f.parent] := by
  induction gs with
  | nil => simp [addToGroup, keysOf]
  | cons e rest ih =>
    obtain ⟨k, fs⟩ := e
    by_cases hk : k = f.parent
    · subst hk
      simp [addToGroup, keysOf]
    · have hk2 : ¬ (f.parent = k) := fun h => hk h.symm
      simp only [keysOf, List.map_cons] at ih ⊢
      rw [show addToGroup ((k, fs) :: rest) f = (k, fs) :: addToGroup rest f from by
        simp [addToGroup, hk]]
      simp only [List.map_cons]
      rw [ih]
      by_cases hm : f.parent ∈ List.map Prod.fst rest
      · rw [if_pos hm, if_pos (by simp [hm])]
      · rw [if_neg hm, if_neg (by simp [hm, hk2]), List.cons_append]

theorem addToGroup_keys_nodup {gs : List (List Char × List PFile)} (f : PFile)
    (h : (keysOf gs).Nodup) : (keysOf (addToGroup gs f)).Nodup := by
  rw [addToGroup_keys]
  by_cases hm : f.parent ∈ keysOf gs
  · rw [if_pos hm]; exact h
  · rw [if_neg hm]
    rw [List.nodup_append]
    exact ⟨h, by simp, by simpa using hm⟩

theorem groupByParent_keys_nodup_aux : ∀ (files : List PFile) gs,
    (keysOf gs).Nodup → (keysOf (List.foldl addToGroup gs files)).Nodup := by
  intro files
  induction files with
  | nil => intro gs h; exact h
  | cons f fs ih =>
    intro gs h
    rw [List.foldl_cons]
    exact ih (addToGroup gs f) (addToGroup_keys_nodup f h)

theorem groupByParent_keys_nodup (files : List PFile) :
    (keysOf (groupByParent files)).Nodup :=
  groupByParent_keys_nodup_aux files [] (by simp [keysOf])

theorem find?_eq_of_nodup_keys : ∀ (gs : List (List Char × List PFile)),
    (keysOf gs).Nodup → ∀ e ∈ gs, gs.find? (fun x => decide (x.1 = e.1)) = some e := by
  intro gs
  induction gs with
  | nil => intro _ e he; simp at he
  | cons e0 rest ih =>
    intro hnd e he
    have hnd0 : (e0.1 :: List.map Prod.fst rest).Nodup := by
      simpa only [keysOf, List.map_cons] using hnd
    have hnd' := List.nodup_cons.mp hnd0
    rcases List.mem_cons.mp he with h1 | h2
    · subst h1; simp [List.find?]
    · by_cases hk : e0.1 = e.1
      · exfalso
        have hmem : e.1 ∈ List.map Prod.fst rest := List.mem_map_of_mem Prod.fst h2
        exact hnd'.1 (by rw [hk]; exact hmem)
      · have hr := ih (by simpa only [keysOf] using hnd'.2) e h2
        simp [List.find?, hk, hr]

theorem group_value_eq {files : List PFile} {e : List Char × List PFile}
    (he : e ∈ groupByParent files) :
    e.2 = files.filter (fun f => decide (f.parent = e.1)) := by
  have hf := find?_eq_of_nodup_keys _ (groupByParent_keys_nodup files) e he
  have hl := lookupGroup_groupByParent files e.1
  unfold lookupGroup at hl
  rw [hf] at hl
  exact hl

theorem lookupGroup_ne_nil_mem {gs : List (List Char × List PFile)} {d : List Char}
    (h : lookupGroup gs d ≠ []) : ∃ e ∈ gs, e.1 = d ∧ e.2 = lookupGroup gs d := by
  unfold lookupGroup at h ⊢
  cases hf : gs.find? (fun e => decide (e.1 = d)) with
  | none => rw [hf] at h; simp at h
  | some e =>
    refine ⟨e, List.mem_of_find?_eq_some hf, ?_, rfl⟩
    have hp := List.find?_some hf
    simpa using hp

/-! ### Lemmas about the sorted group list and pairOf -/

theorem find_image_pairs_eq (entries : List PFile) :
    find_image_pairs entries
      = (List.insertionSort keyLe
          ((groupByParent (entries.filter qualifies)).map Prod.snd)).filterMap pairOf := rfl

theorem headParent_group {files : List PFile} {e : List Char × List PFile}
    (he : e ∈ groupByParent files) : headParent e.2 = e.1 := by
  have hm := groupByParent_members files e he
  cases h2 : e.2 with
  | nil => exact absurd h2 hm.1
  | cons f0 r =>
    have hp : f0.parent = e.1 := hm.2 f0 (by rw [h2]; simp)
    simpa [headParent] using hp

theorem sortedVals_mem {entries : List PFile} {g : List PFile}
    (hg : g ∈ List.insertionSort keyLe
      ((groupByParent (entries.filter qualifies)).map Prod.snd)) :
    g ≠ [] ∧ (∀ f ∈ g, f.parent = headParent g) ∧ g = qualIn entries (headParent g) := by
  have hg2 : g ∈ (groupByParent (entries.filter qualifies)).map Prod.snd :=
    (List.perm_insertionSort keyLe _).mem_iff.mp hg
  obtain ⟨e, he, hge⟩ := List.mem_map.mp hg2
  have hm := groupByParent_members (entries.filter qualifies) e he
  have hval := group_value_eq he
  have hhp := headParent_group he
  subst hge
  refine ⟨hm.1, ?_, ?_⟩
  · intro f hf
    rw [hhp]
    exact hm.2 f hf
  · rw [hhp]
    unfold qualIn
    exact hval

theorem pairOf_eq_none {g : List PFile} (h : g.length < 2) : pairOf g = none := by
  unfold pairOf
  rw [if_neg (by omega)]

theorem pairOf_isSome_of_two {g : List PFile} (h2 : 2 ≤ g.length) :
    ∃ p, pairOf g = some p := by
  unfold pairOf
  rw [if_pos h2]
  have hlen := List.length_insertionSort pathLe g
  cases hs : List.insertionSort pathLe g with
  | nil => rw [hs] at hlen; simp at hlen; omega
  | cons a rest => exact ⟨_, rfl⟩

theorem pairwise_rel_getLast {α : Type} {r : α → α → Prop} :
    ∀ {l : List α}, List.Pairwise r l → ∀ (hne : l ≠ []) (x : α), x ∈ l →
      x = l.getLast hne ∨ r x (l.getLast hne) := by
  intro l
  induction l with
  | nil => intro _ hne; exact absurd rfl hne
  | cons a rest ih =>
    intro h hne x hx
    cases rest with
    | nil =>
      have hxa : x = a := by simpa using hx
      subst hxa
      left
      rfl
    | cons b rest' =>
      have hL : (a :: b :: rest').getLast hne = (b :: rest').getLast (List.cons_ne_nil _ _) :=
        List.getLast_cons _
      rcases List.mem_cons.mp hx with h1 | h2
      · subst h1
        right
        rw [hL]
        exact (List.pairwise_cons.mp h).1 _ (List.getLast_mem _)
      · rw [hL]
        exact ih (List.pairwise_cons.mp h).2 (List.cons_ne_nil b rest') x h2

theorem pairOf_mem_bounds {g : List PFile} {a b : PFile} (h : pairOf g = some (a, b)) :
    a ∈ g ∧ b ∈ g ∧ ∀ f ∈ g, pathLe a f ∧ pathLe f b := by
  unfold pairOf at h
  by_cases h2 : 2 ≤ g.length
  · rw [if_pos h2] at h
    cases hs : List.insertionSort pathLe g with
    | nil => rw [hs] at h; exact absurd h (by simp)
    | cons a0 rest =>
      rw [hs] at h
      simp only [Option.some.injEq, Prod.mk.injEq] at h
      obtain ⟨ha, hb⟩ := h
      have hsorted := List.sorted_insertionSort pathLe g
      rw [hs] at hsorted
      have hperm := List.perm_insertionSort pathLe g
      rw [hs] at hperm
      have hbmem : b ∈ a0 :: rest := by
        rw [← hb]
        exact List.getLast_mem _
      have hamem : a ∈ a0 :: rest := by rw [← ha]; simp
      refine ⟨hperm.mem_iff.mp hamem, hperm.mem_iff.mp hbmem, ?_⟩
      intro f hf
      have hfs : f ∈ a0 :: rest := hperm.mem_iff.mpr hf
      constructor
      · rcases List.mem_cons.mp hfs with h1 | h2m
        · rw [← ha, h1]
          exact le_refl (fullPath a0)
        · rw [← ha]
          exact List.rel_of_sorted_cons hsorted f h2m
      · have hgl := pairwise_rel_getLast hsorted (List.cons_ne_nil a0 rest) f hfs
        rw [hb] at hgl
        rcases hgl with h1 | h2m
        · rw [h1]
          exact le_refl (fullPath b)
        · exact h2m
  · rw [if_neg h2] at h
    exact absurd h (by simp)

theorem filterMap_pairOf_filter (q : PFile × PFile → Bool) (qg : List PFile → Bool) :
    ∀ l : List (List PFile), (∀ g ∈ l, ∀ p, pairOf g = some p → q p = qg g) →
      (l.filterMap pairOf).filter q = (l.filter qg).filterMap pairOf := by
  intro l
  induction l with
  | nil => intro _; rfl
  | cons g gs ih =>
    intro h
    have hrest := ih (fun g2 hg2 p2 hp2 => h g2 (by simp [hg2]) p2 hp2)
    cases hg : pairOf g with
    | none =>
      have e1 : ((g :: gs).filterMap pairOf) = gs.filterMap pairOf := by
        rw [List.filterMap_cons, hg]
      by_cases hq : qg g = true
      · rw [e1, List.filter_cons, if_pos hq, List.filterMap_cons, hg, hrest]
      · rw [e1, List.filter_cons, if_neg hq, hrest]
    | some p =>
      have hqp := h g (by simp) p hg
      have e1 : ((g :: gs).filterMap pairOf) = p :: gs.filterMap pairOf := by
        rw [List.filterMap_cons, hg]
      by_cases hq : qg g = true
      · have hqp' : q p = true := by rw [hqp]; exact hq
        rw [e1, List.filter_cons, if_pos hqp', List.filter_cons, if_pos hq,
          List.filterMap_cons, hg, hrest]
      · have hqp' : ¬ (q p = true) := by rw [hqp]; exact hq
        rw [e1, List.filter_cons, if_neg hqp', List.filter_cons, if_neg hq, hrest]

theorem filter_key_of_nodup : ∀ (gs : List (List Char × List PFile)) (d : List Char),
    (keysOf gs).Nodup →
    gs.filter (fun e => decide (e.1 = d)) = []
      ∨ ∃ e, gs.filter (fun e => decide (e.1 = d)) = [e] ∧ e ∈ gs ∧ e.1 = d := by
  intro gs
  induction gs with
  | nil => intro d _; left; rfl
  | cons e0 rest ih =>
    intro d hnd
    have hnd0 : (e0.1 :: List.map Prod.fst rest).Nodup := by
      simpa only [keysOf, List.map_cons] using hnd
    have hnd' := List.nodup_cons.mp hnd0
    by_cases hk : e0.1 = d
    · right
      refine ⟨e0, ?_, by simp, hk⟩
      rw [List.filter_cons, if_pos (by simp [hk])]
      have hrest : rest.filter (fun e => decide (e.1 = d)) = [] := by
        rw [List.filter_eq_nil_iff]
        intro e2 he2
        simp only [decide_eq_true_eq]
        intro hed
        have heq : e0.1 = e2.1 := hk.trans hed.symm
        have hmem : e0.1 ∈ List.map Prod.fst rest := by
          rw [heq]; exact List.mem_map_of_mem Prod.fst he2
        exact hnd'.1 hmem
      rw [hrest]
    · rw [List.filter_cons, if_neg (by simp [hk])]
      rcases ih d (by simpa only [keysOf] using hnd'.2) with h1 | ⟨e, he1, he2, he3⟩
      · left; exact h1
      · right; exact ⟨e, he1, by simp [he2], he3⟩

theorem qualIn_eq_lookup (entries : List PFile) (d : List Char) :
    qualIn entries d = lookupGroup (groupByParent (entries.filter qualifies)) d :=
  (lookupGroup_groupByParent _ d).symm

theorem sortedVals_filter_eq (entries : List PFile) (d : List Char) :
    (List.insertionSort keyLe
        ((groupByParent (entries.filter qualifies)).map Prod.snd)).filter
        (fun g => decide (headParent g = d))
      = if qualIn entries d = [] then [] else [qualIn entries d] := by
  have hperm := (List.perm_insertionSort keyLe
    ((groupByParent (entries.filter qualifies)).map Prod.snd)).filter
    (fun g => decide (headParent g = d))
  have hmapfil : ((groupByParent (entries.filter qualifies)).map Prod.snd).filter
      (fun g => decide (headParent g = d))
      = ((groupByParent (entries.filter qualifies)).filter
          (fun e => decide (e.1 = d))).map Prod.snd := by
    rw [List.filter_map]
    congr 1
    apply List.filter_congr
    intro e he
    simp only [Function.comp]
    rw [headParent_group he]
  rcases filter_key_of_nodup (groupByParent (entries.filter qualifies)) d
      (groupByParent_keys_nodup _) with hnil | ⟨e, hone, hmem, hkey⟩
  · have hq : qualIn entries d = [] := by
      by_contra hne
      rw [qualIn_eq_lookup] at hne
      obtain ⟨e, hmem, hkey, _⟩ := lookupGroup_ne_nil_mem hne
      have : e ∈ (groupByParent (entries.filter qualifies)).filter
          (fun e => decide (e.1 = d)) := List.mem_filter.mpr ⟨hmem, by simp [hkey]⟩
      rw [hnil] at this
      simp at this
    rw [if_pos hq]
    rw [hnil] at hmapfil
    simp only [List.map_nil] at hmapfil
    rw [hmapfil] at hperm
    exact List.perm_nil.mp hperm
  · have hval : e.2 = qualIn entries d := by
      rw [group_value_eq hmem, hkey]
      rfl
    have hne2 : qualIn entries d ≠ [] := by
      rw [← hval]
      exact (groupByParent_members _ e hmem).1
    rw [if_neg hne2]
    rw [hone] at hmapfil
    simp only [List.map_cons, List.map_nil] at hmapfil
    rw [hval] at hmapfil
    rw [hmapfil] at hperm
    exact List.perm_singleton.mp hperm

/-- C1: for every directory with at least two qualifying image files (regular
file, extension case-insensitively png/jpg/jpeg), find_image_pairs yields
exactly one pair for that directory, whose components are qualifying files of
the directory bounding all qualifying files from below and above in
lexicographic full-path order (i.e. the lexicographic minimum and maximum
paths); a directory with zero or one qualifying file yields no pair. -/
theorem C1_per_directory_pair (entries : List PFile) (d : List Char) :
    (2 ≤ (qualIn entries d).length →
      ∃ a b, pairsFor entries d = [(a, b)] ∧ a ∈ qualIn entries d ∧ b ∈ qualIn entries d ∧
        ∀ f ∈ qualIn entries d, fullPath a ≤ fullPath f ∧ fullPath f ≤ fullPath b) ∧
    ((qualIn entries d).length ≤ 1 → pairsFor entries d = []) := by
  have hexch : pairsFor entries d
      = ((List.insertionSort keyLe
          ((groupByParent (entries.filter qualifies)).map Prod.snd)).filter
          (fun g => decide (headParent g = d))).filterMap pairOf := by
    unfold pairsFor
    rw [find_image_pairs_eq]
    apply filterMap_pairOf_filter
    intro g hg p hp
    obtain ⟨a, b⟩ := p
    have hmem := sortedVals_mem hg
    have hbounds := pairOf_mem_bounds hp
    have hpar : a.parent = headParent g := hmem.2.1 a hbounds.1
    show decide (a.parent = d) = decide (headParent g = d)
    rw [hpar]
  rw [hexch, sortedVals_filter_eq]
  constructor
  · intro h2
    have hne : qualIn entries d ≠ [] := by
      intro h; rw [h] at h2; simp at h2
    rw [if_neg hne]
    obtain ⟨p, hp⟩ := pairOf_isSome_of_two h2
    obtain ⟨a, b⟩ := p
    have hbounds := pairOf_mem_bounds hp
    refine ⟨a, b, ?_, hbounds.1, hbounds.2.1, ?_⟩
    · rw [List.filterMap_cons, hp]
      rfl
    · intro f hf
      exact hbounds.2.2 f hf
  · intro h1
    by_cases hq : qualIn entries d = []
    · rw [if_pos hq]; rfl
    · rw [if_neg hq]
      have hlen : (qualIn entries d).length < 2 := by omega
      rw [List.filterMap_cons, pairOf_eq_none hlen]
      rfl

theorem C1_witness :
    (∃ a b, pairsFor exEntries "root/shotA".toList = [(a, b)] ∧
      a ∈ qualIn exEntries "root/shotA".toList ∧
      b ∈ qualIn exEntries "root/shotA".toList ∧
      ∀ f ∈ qualIn exEntries "root/shotA".toList,
        fullPath a ≤ fullPath f ∧ fullPath f ≤ fullPath b) ∧
    pairsFor exEntries "root/shotB".toList = [] :=
  ⟨(C1_per_directory_pair exEntries ("root/shotA".toList)).1 (by decide),
   (C1_per_directory_pair exEntries ("root/shotB".toList)).2 (by decide)⟩

/-- C2 as stated is false on the code: with folder "a" holding z1.png, z2.png
and folder "b" holding a1.png, a2.png, the produced list puts the pair of
folder "b" first, so it is not ascending in the parent folders' own names. -/
theorem C2_counterexample :
    ¬ List.Pairwise (fun p q : PFile × PFile =>
        baseName p.1.parent ≤ baseName q.1.parent) (find_image_pairs exC2entries) := by
  decide

/-- C2 amended: the pair list is ordered ascending (stably) by the name of
the first qualifying image discovered in each pair's directory (the sort key
x[0].name of line 93), not by the parent folder's own name. -/
theorem C2_amended_order_by_first_image_name (entries : List PFile) :
    List.Pairwise (fun p q : PFile × PFile =>
      headName (qualIn entries p.1.parent) ≤ headName (qualIn entries q.1.parent))
      (find_image_pairs entries) := by
  rw [find_image_pairs_eq]
  have hsorted : List.Sorted keyLe (List.insertionSort keyLe
      ((groupByParent (entries.filter qualifies)).map Prod.snd)) :=
    List.sorted_insertionSort keyLe _
  rw [List.pairwise_filterMap]
  refine List.Pairwise.imp_of_mem ?_ hsorted
  intro g h hg hh hgh p hp q hq
  simp only [Option.mem_def] at hp hq
  obtain ⟨a, b⟩ := p
  obtain ⟨a2, b2⟩ := q
  have hgm := sortedVals_mem hg
  have hhm := sortedVals_mem hh
  have hpb := pairOf_mem_bounds hp
  have hqb := pairOf_mem_bounds hq
  have hpar1 : a.parent = headParent g := hgm.2.1 a hpb.1
  have hpar2 : a2.parent = headParent h := hhm.2.1 a2 hqb.1
  show headName (qualIn entries a.parent) ≤ headName (qualIn entries a2.parent)
  rw [hpar1, hpar2, ← hgm.2.2, ← hhm.2.2]
  exact hgh

/-- C9: two distinct pairs never share a parent directory; each pair's two
components lie in the same directory with the first at most the last in
lexicographic path order; and the report path for a pair is
"video_prompt.md" inside that shared directory. -/
theorem C9_pair_invariants (entries : List PFile) :
    List.Pairwise (fun p q : PFile × PFile => p.1.parent ≠ q.1.parent)
      (find_image_pairs entries) ∧
    ∀ p ∈ find_image_pairs entries,
      p.1.parent = p.2.parent ∧ fullPath p.1 ≤ fullPath p.2 ∧
      reportPath p = p.1.parent ++ '/' :: "video_prompt.md".toList := by
  constructor
  · rw [find_image_pairs_eq, List.pairwise_filterMap]
    have hkeys : List.Pairwise (fun g h : List PFile => headParent g ≠ headParent h)
        ((groupByParent (entries.filter qualifies)).map Prod.snd) := by
      have hnd : List.Pairwise (fun x y : List Char => x ≠ y)
          ((groupByParent (entries.filter qualifies)).map Prod.fst) :=
        groupByParent_keys_nodup (entries.filter qualifies)
      rw [List.pairwise_map] at hnd ⊢
      refine List.Pairwise.imp_of_mem ?_ hnd
      intro e1 e2 he1 he2 hne
      rw [headParent_group he1, headParent_group he2]
      exact hne
    have hperm := List.perm_insertionSort keyLe
      ((groupByParent (entries.filter qualifies)).map Prod.snd)
    have hps : List.Pairwise (fun g h : List PFile => headParent g ≠ headParent h)
        (List.insertionSort keyLe
          ((groupByParent (entries.filter qualifies)).map Prod.snd)) :=
      (hperm.pairwise_iff (fun hxy => hxy.symm)).mpr hkeys
    refine List.Pairwise.imp_of_mem ?_ hps
    intro g h hg hh hne p hp q hq
    simp only [Option.mem_def] at hp hq
    obtain ⟨a, b⟩ := p
    obtain ⟨a2, b2⟩ := q
    have hgm := sortedVals_mem hg
    have hhm := sortedVals_mem hh
    have hpb := pairOf_mem_bounds hp
    have hqb := pairOf_mem_bounds hq
    show a.parent ≠ a2.parent
    rw [hgm.2.1 a hpb.1, hhm.2.1 a2 hqb.1]
    exact hne
  · intro p hp
    rw [find_image_pairs_eq] at hp
    obtain ⟨g, hg, hpg⟩ := List.mem_filterMap.mp hp
    have hmem := sortedVals_mem hg
    obtain ⟨a, b⟩ := p
    have hbounds := pairOf_mem_bounds hpg
    refine ⟨?_, ?_, rfl⟩
    · show a.parent = b.parent
      rw [hmem.2.1 a hbounds.1, hmem.2.1 b hbounds.2.1]
    · exact (hbounds.2.2 b hbounds.2.1).1

theorem C9_witness :
    exPairA.1.parent = exPairA.2.parent ∧ fullPath exPairA.1 ≤ fullPath exPairA.2 ∧
    reportPath exPairA = exPairA.1.parent ++ '/' :: "video_prompt.md".toList :=
  (C9_pair_invariants exEntries).2 exPairA (by decide)

/-! ### Lemmas about the backend loop and the report -/

theorem process_pair_run_foldl (resp : String → Except String (List Char)) :
    ∀ (ms : List String) (acc : List String × List (String × List Char)),
      (ms.foldl (fun acc m =>
        match resp m with
        | Except.ok raw => (acc.1 ++ [m], acc.2 ++ [(m, extract_samp_content raw)])
        | Except.error _ => (acc.1 ++ [m], acc.2)) acc)
      = (acc.1 ++ ms, acc.2 ++ ms.filterMap (fun m =>
          match resp m with
          | Except.ok raw => some (m, extract_samp_content raw)
          | Except.error _ => none)) := by
  intro ms
  induction ms with
  | nil => intro acc; simp
  | cons m ms ih =>
    intro acc
    cases hr : resp m with
    | ok raw =>
      simp only [List.foldl_cons, hr, List.filterMap_cons]
      rw [ih]
      simp [List.append_assoc]
    | error e =>
      simp only [List.foldl_cons, hr, List.filterMap_cons]
      rw [ih]
      simp [List.append_assoc]

theorem process_pair_run_eq (resp : String → Except String (List Char)) :
    process_pair_run resp = (MODELS, MODELS.filterMap (fun m =>
      match resp m with
      | Except.ok raw => some (m, extract_samp_content raw)
      | Except.error _ => none)) := by
  unfold process_pair_run
  rw [process_pair_run_foldl]
  simp

/-- C3: every backend of the fixed 4-element list is invoked, in list order,
regardless of failures; the answer record holds entries exactly for the
non-failing backends, in list order; in particular, if backend 2 of 4 raises
and the others succeed, the record's keys are backends 1, 3, 4 in that
relative order and backend 2 is absent. -/
theorem C3_backend_isolation :
    (∀ resp : String → Except String (List Char),
      (process_pair_run resp).1 = MODELS ∧
      (process_pair_run resp).2 = MODELS.filterMap (fun m =>
        match resp m with
        | Except.ok raw => some (m, extract_samp_content raw)
        | Except.error _ => none)) ∧
    (∀ (resp : String → Except String (List Char)) (e : String) (r1 r3 r4 : List Char),
      resp M1 = Except.ok r1 → resp M2 = Except.error e →
      resp M3 = Except.ok r3 → resp M4 = Except.ok r4 →
      ((process_pair_run resp).2).map Prod.fst = [M1, M3, M4]) := by
  constructor
  · intro resp
    rw [process_pair_run_eq]
    exact ⟨rfl, rfl⟩
  · intro resp e r1 r3 r4 h1 h2 h3 h4
    have h5 : (process_pair_run resp).2 = List.filterMap (fun m =>
        match resp m with
        | Except.ok raw => some (m, extract_samp_content raw)
        | Except.error _ => none) [M1, M2, M3, M4] := by
      rw [process_pair_run_eq]
      rfl
    rw [h5]
    simp [List.filterMap_cons, h1, h2, h3, h4]

theorem C3_witness :
    ((process_pair_run exResp).2).map Prod.fst = [M1, M3, M4] :=
  C3_backend_isolation.2 exResp "quota" exTagText exTagText exTagText
    (by show (if M1 = M2 then Except.error "quota" else Except.ok exTagText)
          = Except.ok exTagText
        rw [if_neg (by decide)])
    (by show (if M2 = M2 then Except.error "quota" else Except.ok exTagText)
          = Except.error "quota"
        rw [if_pos rfl])
    (by show (if M3 = M2 then Except.error "quota" else Except.ok exTagText)
          = Except.ok exTagText
        rw [if_neg (by decide)])
    (by show (if M4 = M2 then Except.error "quota" else Except.ok exTagText)
          = Except.ok exTagText
        rw [if_neg (by decide)])

/-- C8: process_pair writes a single file, "video_prompt.md" in the pair's
folder, whose content is the block "## backend\n\n" ++ answer ++ "\n\n" for
each backend present in the record, in the fixed list order, failed backends
omitted; any existing content at that path is replaced, and no other path is
touched. -/
theorem C8_report_content (fs : FSModel) (resp : String → Except String (List Char))
    (pair : PFile × PFile) :
    process_pair_fs fs resp pair (reportPath pair) = some (blocksOf resp) ∧
    ∀ q, q ≠ reportPath pair → process_pair_fs fs resp pair q = fs q := by
  constructor
  · show writeFile fs (reportPath pair)
      (reportContent (process_pair_run resp).2) (reportPath pair) = some (blocksOf resp)
    unfold writeFile
    rw [if_pos rfl]
    have h2 : (process_pair_run resp).2 = MODELS.filterMap (fun m =>
        match resp m with
        | Except.ok raw => some (m, extract_samp_content raw)
        | Except.error _ => none) := by
      rw [process_pair_run_eq]
    rw [h2]
    rfl
  · intro q hq
    show writeFile fs (reportPath pair) (reportContent (process_pair_run resp).2) q = fs q
    unfold writeFile
    rw [if_neg hq]

theorem C8_witness :
    process_pair_fs exFsOld exResp exPairA ("other.md".toList)
      = exFsOld ("other.md".toList) :=
  (C8_report_content exFsOld exResp exPairA).2 ("other.md".toList) (by decide)

/-- C10: the report file is opened and written unconditionally after the
backend loop: when every backend fails, the pair's folder still receives a
report file with empty content, replacing whatever a previous run left at
that path. -/
theorem C10_empty_report_written (fs : FSModel)
    (resp : String → Except String (List Char)) (pair : PFile × PFile)
    (hfail : ∀ m ∈ MODELS, ∃ e, resp m = Except.error e) :
    process_pair_fs fs resp pair (reportPath pair) = some [] := by
  show writeFile fs (reportPath pair)
    (reportContent (process_pair_run resp).2) (reportPath pair) = some []
  unfold writeFile
  rw [if_pos rfl]
  have h2 : (process_pair_run resp).2 = [] := by
    have h5 : (process_pair_run resp).2 = MODELS.filterMap (fun m =>
        match resp m with
        | Except.ok raw => some (m, extract_samp_content raw)
        | Except.error _ => none) := by
      rw [process_pair_run_eq]
    rw [h5, List.filterMap_eq_nil_iff]
    intro m hm
    obtain ⟨e, he⟩ := hfail m hm
    rw [he]
  rw [h2]
  rfl

theorem C10_witness :
    process_pair_fs exFsOld exRespFail exPairA (reportPath exPairA) = some [] :=
  C10_empty_report_written exFsOld exRespFail exPairA
    (fun _ _ => ⟨"network down", rfl⟩)

/-- C4 as stated is false on the code: process_folder's per-pair loop has no
exception handler, so when process_pair raises on the first of two pairs
(here a report-write failure, the only failure that escapes process_pair),
the second pair is never attempted. -/
theorem C4_counterexample :
    (process_folder_loop exBadRun [exPairA, exPairB]).1 ≠ [exPairA, exPairB] := by
  decide

/-- C4 amended: the attempted pairs are exactly the prefix of the pair list
up to and including the first pair whose processing raises (all pairs when
none raises); an exception escaping process_pair aborts all later pairs,
while per-backend failures inside a pair do not raise (see C3). -/
theorem C4_amended_abort_on_failure (runPair : PFile × PFile → Except String Unit)
    (pairs : List (PFile × PFile)) :
    (process_folder_loop runPair pairs).1
      = pairs.take (pairs.findIdx (fun p => !(runPair p).isOk) + 1) := by
  induction pairs with
  | nil => rfl
  | cons p rest ih =>
    cases hr : runPair p with
    | ok u =>
      have hok : (runPair p).isOk = true := by rw [hr]; rfl
      simp only [process_folder_loop, hr]
      rw [List.findIdx_cons]
      simp only [hok, Bool.not_true, Bool.false_eq_true, if_false]
      rw [ih]
      simp [List.take_succ_cons]
    | error e =>
      have hok : (runPair p).isOk = false := by rw [hr]; rfl
      simp only [process_folder_loop, hr]
      rw [List.findIdx_cons]
      simp [hok]
